import Mathlib

/-!
Shallow embedding of `maths/numerical_analysis/adams_bashforth.py`.

Python floats are modelled as exact rationals (`ℚ`); Python `int(...)`
truncation toward zero is `int_of`; Python `round(v, 10)` (round half to
even at the tenth decimal digit) is `round10`.  The dataclass
`AdamsBashforth` with its `__post_init__` validation is modelled by the
structure `AdamsBashforth` together with `construct`, which returns either
the constructed record or the error the constructor raises; accessing
`x_initials[-1]` on an empty list is the `indexError` outcome.
-/

attribute [local semireducible] Rat.add Rat.mul Rat.inv Rat.sub Rat.ofScientific

/-- The fields of the Python dataclass `AdamsBashforth`. -/
structure AdamsBashforth where
  func : ℚ → ℚ → ℚ
  x_initials : List ℚ
  y_initials : List ℚ
  step_size : ℚ
  x_final : ℚ

/-- The distinct failure modes of `__post_init__`: the implicit IndexError
from `x_initials[-1]` on an empty list, and the three `ValueError`s, named
as the spec names them. -/
inductive ConstructError where
  | indexError : ConstructError
  | invalidRange : ConstructError
  | invalidStepSize : ConstructError
  | nonUniformSpacing : ConstructError
deriving DecidableEq

/-- Round half to even: the integer nearest to `q`, ties going to the even
integer (the rounding Python `round` uses). -/
def round_half_even (q : ℚ) : ℤ :=
  if Int.fract q < 1 / 2 then ⌊q⌋
  else if 1 / 2 < Int.fract q then ⌊q⌋ + 1
  else if ⌊q⌋ % 2 = 0 then ⌊q⌋ else ⌊q⌋ + 1

/-- Python `round(q, 10)`: round to ten decimal digits, half to even. -/
def round10 (q : ℚ) : ℚ :=
  (round_half_even (q * 10 ^ 10) : ℚ) / 10 ^ 10

/-- The spacing check of `__post_init__`: every consecutive pair of
`x_initials` satisfies `round(x1 - x0, 10) == step_size`. -/
def all_equally_spaced (xs : List ℚ) (h : ℚ) : Bool :=
  (xs.zip xs.tail).all fun p => decide (round10 (p.2 - p.1) = h)

/-- `AdamsBashforth(func, x_initials, y_initials, step_size, x_final)`:
runs the `__post_init__` checks in source order and returns the record or
the error raised.  Reading `x_initials[-1]` comes first, so an empty
`x_initials` is an `indexError`. -/
def construct (func : ℚ → ℚ → ℚ) (x_initials y_initials : List ℚ)
    (step_size x_final : ℚ) : Except ConstructError AdamsBashforth :=
  if x_initials = [] then .error .indexError
  else if x_final ≤ x_initials.getLastD 0 then .error .invalidRange
  else if step_size ≤ 0 then .error .invalidStepSize
  else if all_equally_spaced x_initials step_size then
    .ok ⟨func, x_initials, y_initials, step_size, x_final⟩
  else .error .nonUniformSpacing

/-- The one error a `step_k` method can raise:
`InsufficientInitialPointsError`, carrying the required point count. -/
inductive StepError where
  | insufficientInitialPoints : ℕ → StepError
deriving DecidableEq

/-- `_validate_initial_points`: both lists must have length exactly
`required_points`. -/
def _validate_initial_points (p : AdamsBashforth) (required_points : ℕ) :
    Except StepError Unit :=
  if p.x_initials.length ≠ required_points ∨
      p.y_initials.length ≠ required_points then
    .error (.insufficientInitialPoints required_points)
  else .ok ()

/-- The coefficient dictionary of `_adams_bashforth`. -/
def coeffs : ℕ → List ℤ
  | 2 => [3, -1]
  | 3 => [23, -16, 5]
  | 4 => [55, -59, 37, -9]
  | 5 => [1901, -2774, 2616, -1274, 251]
  | _ => []

/-- `np.dot` on two equal-length lists. -/
def dotProd (a b : List ℚ) : ℚ :=
  ((a.zip b).map fun p => p.1 * p.2).sum

/-- Python `int(q)`: truncation toward zero. -/
def int_of (q : ℚ) : ℤ :=
  if q < 0 then -⌊-q⌋ else ⌊q⌋

/-- Line 81: `[self.func(x, y[j]) for j, x in enumerate(x_vals)]` — the
derivative evaluations of one step, reading `y` at the window positions
`j = 0 .. len(x_vals) - 1`. -/
def f_vals_of (func : ℚ → ℚ → ℚ) (x_vals y : List ℚ) : List ℚ :=
  (List.range x_vals.length).map fun j => func (x_vals.getD j 0) (y.getD j 0)

/-- Line 83: `x_vals = np.append(x_vals[1:], x_vals[-1] + step_size)` —
drop the oldest abscissa, append the newest plus the step. -/
def slide (h : ℚ) (xs : List ℚ) : List ℚ :=
  xs.tail ++ [xs.getLastD 0 + h]

/-- Line 82: the newly computed value
`y[order+i-1] + (step_size/factorial(order-1)) * np.dot(coeffs, f_vals[::-1])`.
Since the result list grows by one entry per step, `y[order+i-1]` is the
last entry of the list built so far. -/
def next_y (func : ℚ → ℚ → ℚ) (c : List ℤ) (d h : ℚ) (x_vals y : List ℚ) : ℚ :=
  y.getLastD 0 +
    (h / d) * dotProd (c.map fun (z : ℤ) => (z : ℚ)) (f_vals_of func x_vals y).reverse

/-- The `for i in range(n)` loop of `_adams_bashforth`, with the result
array represented as a list that grows by one computed entry per step
(the preallocated zeros past the write position are never read). -/
def ab_loop (func : ℚ → ℚ → ℚ) (c : List ℤ) (d h : ℚ) :
    ℕ → List ℚ → List ℚ → List ℚ
  | 0, _, y => y
  | n + 1, xv, y =>
      ab_loop func c d h n (slide h xv) (y ++ [next_y func c d h xv y])

/-- `n = int((self.x_final - x_vals[-1]) / self.step_size)` where
`x_vals = x_initials[:order]` (clamped at zero: for every validly
constructed problem the quotient is positive). -/
def n_steps (p : AdamsBashforth) (order : ℕ) : ℕ :=
  (int_of ((p.x_final - (p.x_initials.take order).getLastD 0) / p.step_size)).toNat

/-- `_adams_bashforth(self, order)`. -/
def _adams_bashforth (p : AdamsBashforth) (order : ℕ) : List ℚ :=
  ab_loop p.func (coeffs order) ((Nat.factorial (order - 1) : ℚ)) p.step_size
    (n_steps p order) (p.x_initials.take order) (p.y_initials.take order)

/-- The shared body of `step_2` … `step_5`: validate the point count for
the requested order, then run `_adams_bashforth`. -/
def stepOrder (p : AdamsBashforth) (k : ℕ) : Except StepError (List ℚ) :=
  match _validate_initial_points p k with
  | .error e => .error e
  | .ok _ => .ok (_adams_bashforth p k)

/-- `step_2`. -/
def step_2 (p : AdamsBashforth) : Except StepError (List ℚ) := stepOrder p 2

/-- `step_3`. -/
def step_3 (p : AdamsBashforth) : Except StepError (List ℚ) := stepOrder p 3

/-- `step_4`. -/
def step_4 (p : AdamsBashforth) : Except StepError (List ℚ) := stepOrder p 4

/-- `step_5`. -/
def step_5 (p : AdamsBashforth) : Except StepError (List ℚ) := stepOrder p 5

/-- A record is validly constructed when `construct` on its own fields
succeeds: nonempty `x_initials` whose last entry is below `x_final`,
positive `step_size`, and consecutive spacings passing the round-to-ten-
digits check. -/
abbrev Valid (p : AdamsBashforth) : Prop :=
  p.x_initials ≠ [] ∧ p.x_initials.getLastD 0 < p.x_final ∧
    0 < p.step_size ∧ all_equally_spaced p.x_initials p.step_size = true

/-- The x-window at the start of step `i`: `i` applications of the slide
to the initial window `x_initials[:order]`. -/
def x_window (p : AdamsBashforth) (order i : ℕ) : List ℚ :=
  (slide p.step_size)^[i] (p.x_initials.take order)

/-- The derivative evaluations of step `i`: window x-values paired with
the initial y-values by window position (the pairing line 81 performs,
since entries `0 .. order-1` of the result array are never overwritten). -/
def step_f_vals (p : AdamsBashforth) (order i : ℕ) : List ℚ :=
  f_vals_of p.func (x_window p order i) (p.y_initials.take order)

/-- The increment step `i` adds:
`(step_size / factorial(order-1)) * np.dot(coeffs, f_vals[::-1])`. -/
def quirk_inc (p : AdamsBashforth) (order i : ℕ) : ℚ :=
  (p.step_size / (Nat.factorial (order - 1) : ℚ)) *
    dotProd ((coeffs order).map fun (z : ℤ) => (z : ℚ)) (step_f_vals p order i).reverse

/-- Closed-form description of entry `m` of the result array: an initial
y-value below index `order`, and otherwise the previous entry plus the
step increment. -/
def quirk_y (p : AdamsBashforth) (order : ℕ) : ℕ → ℚ
  | 0 => p.y_initials.getD 0 0
  | m + 1 =>
      if m + 1 < order then p.y_initials.getD (m + 1) 0
      else quirk_y p order m + quirk_inc p order (m + 1 - order)

/-- Modelled from the claim wording of C1 (not from the source): a loop
identical to `ab_loop` except that the derivative evaluations of step `i`
pair the window x-values with the k most recently computed y-values
`y[i+j]` — the last `len(x_vals)` entries of the list built so far —
instead of the entries at the fixed window positions `y[j]`. -/
def ab_loop_recent (func : ℚ → ℚ → ℚ) (c : List ℤ) (d h : ℚ) :
    ℕ → List ℚ → List ℚ → List ℚ
  | 0, _, y => y
  | n + 1, xv, y =>
      let fv := List.zipWith func xv (y.drop (y.length - xv.length))
      ab_loop_recent func c d h n (slide h xv)
        (y ++ [y.getLastD 0 +
          (h / d) * dotProd (c.map fun (z : ℤ) => (z : ℚ)) fv.reverse])

/-- The run mandated by claim C1: `_adams_bashforth` with the
recently-computed-window pairing. -/
def adams_bashforth_recent (p : AdamsBashforth) (order : ℕ) : List ℚ :=
  ab_loop_recent p.func (coeffs order) ((Nat.factorial (order - 1) : ℚ))
    p.step_size (n_steps p order) (p.x_initials.take order)
    (p.y_initials.take order)

/-- A derivative function used by concrete test problems. -/
def zeroF : ℚ → ℚ → ℚ := fun _ _ => 0

/-- The derivative function of the spec's concrete scenario. -/
def exF : ℚ → ℚ → ℚ := fun x y => x + y

/-- The spec's concrete scenario: f(x,y) = x + y, x_initials [0, 0.2, 0.4],
y_initials [0, 0.2, 1], step_size 0.2, x_final 1. -/
def exP3 : AdamsBashforth := ⟨exF, [0, 1/5, 2/5], [0, 1/5, 1], 1/5, 1⟩

/-- A problem with f(x,y) = y that separates the two derivative pairings:
its y-values change from step to step, while the window-position pairing
keeps reading the two initial y-values. -/
def probA : AdamsBashforth := ⟨fun _ y => y, [0, 1], [0, 1], 1, 3⟩

/-! Helper lemmas about the loop. -/

theorem slide_length (h : ℚ) (xs : List ℚ) :
    (slide h xs).length = xs.length - 1 + 1 := by
  simp [slide]

theorem x_window_zero (p : AdamsBashforth) (k : ℕ) :
    x_window p k 0 = p.x_initials.take k := rfl

theorem x_window_succ (p : AdamsBashforth) (k i : ℕ) :
    x_window p k (i + 1) = slide p.step_size (x_window p k i) := by
  simp only [x_window, Function.iterate_succ_apply']

theorem x_window_length (p : AdamsBashforth) (k : ℕ) (hk : 1 ≤ k)
    (hx : p.x_initials.length = k) : ∀ i, (x_window p k i).length = k := by
  intro i
  induction i with
  | zero => simp [x_window_zero, hx]
  | succ i ih => rw [x_window_succ, slide_length, ih]; omega

theorem quirk_y_lt (p : AdamsBashforth) (k m : ℕ) (hm : m < k) :
    quirk_y p k m = p.y_initials.getD m 0 := by
  cases m with
  | zero => rfl
  | succ m => rw [quirk_y, if_pos hm]

theorem quirk_y_add (p : AdamsBashforth) (k i : ℕ) (hk : 1 ≤ k) :
    quirk_y p k (k + i) = quirk_y p k (k + i - 1) + quirk_inc p k i := by
  obtain ⟨m, rfl⟩ : ∃ m, k = m + 1 := ⟨k - 1, by omega⟩
  have h1 : m + 1 + i = (m + i) + 1 := by omega
  have h2 : m + i + 1 - 1 = m + i := by omega
  have h3 : (m + i) + 1 - (m + 1) = i := by omega
  rw [h1, h2, quirk_y, if_neg (by omega), h3]

theorem range_map_getD (l : List ℚ) :
    (List.range l.length).map (fun j => l.getD j 0) = l := by
  apply List.ext_getElem (by simp)
  intro i h1 h2
  simp only [List.getElem_map, List.getElem_range]
  exact List.getD_eq_getElem l 0 h2

theorem range_map_getD_lt (f : ℕ → ℚ) (L j : ℕ) (hj : j < L) :
    ((List.range L).map f).getD j 0 = f j := by
  rw [List.getD_eq_getElem _ 0 (by simpa using hj)]
  simp

theorem range_map_getLastD (f : ℕ → ℚ) (L : ℕ) (hL : 1 ≤ L) :
    ((List.range L).map f).getLastD 0 = f (L - 1) := by
  obtain ⟨m, rfl⟩ : ∃ m, L = m + 1 := ⟨L - 1, by omega⟩
  simp [List.range_succ, List.getLastD_concat]

theorem f_vals_congr (f : ℚ → ℚ → ℚ) (xv y1 y2 : List ℚ)
    (h : ∀ j < xv.length, y1.getD j 0 = y2.getD j 0) :
    f_vals_of f xv y1 = f_vals_of f xv y2 := by
  unfold f_vals_of
  apply List.map_congr_left
  intro j hj
  rw [h j (List.mem_range.mp hj)]

theorem next_y_eq (p : AdamsBashforth) (k i : ℕ) (hk : 1 ≤ k)
    (hx : p.x_initials.length = k) (hy : p.y_initials.length = k) :
    next_y p.func (coeffs k) ((Nat.factorial (k - 1) : ℚ)) p.step_size
      (x_window p k i) ((List.range (k + i)).map (quirk_y p k))
      = quirk_y p k (k + i) := by
  have ht : p.y_initials.take k = p.y_initials := by
    rw [← hy]; exact List.take_length _
  have hfv : f_vals_of p.func (x_window p k i)
      ((List.range (k + i)).map (quirk_y p k)) = step_f_vals p k i := by
    unfold step_f_vals
    rw [ht]
    apply f_vals_congr
    intro j hj
    rw [x_window_length p k hk hx] at hj
    rw [range_map_getD_lt _ _ _ (by omega), quirk_y_lt p k j hj]
  unfold next_y
  rw [hfv, range_map_getLastD _ _ (by omega), quirk_y_add p k i hk]
  rfl

theorem ab_loop_eq_quirk (p : AdamsBashforth) (k : ℕ) (hk : 1 ≤ k)
    (hx : p.x_initials.length = k) (hy : p.y_initials.length = k) :
    ∀ n i, ab_loop p.func (coeffs k) ((Nat.factorial (k - 1) : ℚ)) p.step_size n
        (x_window p k i) ((List.range (k + i)).map (quirk_y p k))
      = (List.range (k + i + n)).map (quirk_y p k) := by
  intro n
  induction n with
  | zero => intro i; rfl
  | succ n ih =>
    intro i
    show ab_loop p.func (coeffs k) ((Nat.factorial (k - 1) : ℚ)) p.step_size n
        (slide p.step_size (x_window p k i))
        ((List.range (k + i)).map (quirk_y p k) ++
          [next_y p.func (coeffs k) ((Nat.factorial (k - 1) : ℚ)) p.step_size
            (x_window p k i) ((List.range (k + i)).map (quirk_y p k))])
      = (List.range (k + i + (n + 1))).map (quirk_y p k)
    rw [next_y_eq p k i hk hx hy, ← x_window_succ]
    have hconcat : (List.range (k + i)).map (quirk_y p k) ++ [quirk_y p k (k + i)]
        = (List.range (k + i + 1)).map (quirk_y p k) := by
      rw [List.range_succ, List.map_append]; rfl
    rw [hconcat]
    have harith : k + (i + 1) + n = k + i + (n + 1) := by omega
    rw [← harith]
    exact ih (i + 1)

/-- The central characterization: for matching point counts, the result of
`_adams_bashforth` is the length-`order + n` list whose entries follow the
closed-form recurrence `quirk_y`. -/
theorem adams_bashforth_char (p : AdamsBashforth) (k : ℕ) (hk : 1 ≤ k)
    (hx : p.x_initials.length = k) (hy : p.y_initials.length = k) :
    _adams_bashforth p k = (List.range (k + n_steps p k)).map (quirk_y p k) := by
  have ht : p.y_initials.take k = p.y_initials := by
    rw [← hy]; exact List.take_length _
  have h0 : p.y_initials = (List.range k).map (quirk_y p k) := by
    conv_lhs => rw [← range_map_getD p.y_initials]
    rw [hy]
    apply List.map_congr_left
    intro j hj
    rw [quirk_y_lt p k j (List.mem_range.mp hj)]
  unfold _adams_bashforth
  rw [ht, h0]
  exact ab_loop_eq_quirk p k hk hx hy (n_steps p k) 0

theorem char_length (p : AdamsBashforth) (k : ℕ) (hk : 1 ≤ k)
    (hx : p.x_initials.length = k) (hy : p.y_initials.length = k) :
    (_adams_bashforth p k).length = k + n_steps p k := by
  rw [adams_bashforth_char p k hk hx hy]; simp

theorem char_take (p : AdamsBashforth) (k : ℕ) (hk : 1 ≤ k)
    (hx : p.x_initials.length = k) (hy : p.y_initials.length = k) :
    (_adams_bashforth p k).take k = p.y_initials := by
  rw [adams_bashforth_char p k hk hx hy, ← List.map_take, List.take_range,
    Nat.min_eq_left (by omega)]
  conv_rhs => rw [← range_map_getD p.y_initials]
  rw [hy]
  apply List.map_congr_left
  intro j hj
  rw [quirk_y_lt p k j (List.mem_range.mp hj)]

theorem char_getD (p : AdamsBashforth) (k : ℕ) (hk : 1 ≤ k)
    (hx : p.x_initials.length = k) (hy : p.y_initials.length = k)
    (m : ℕ) (hm : m < k + n_steps p k) :
    (_adams_bashforth p k).getD m 0 = quirk_y p k m := by
  rw [adams_bashforth_char p k hk hx hy]
  exact range_map_getD_lt _ _ _ hm

theorem char_rec (p : AdamsBashforth) (k : ℕ) (hk : 1 ≤ k)
    (hx : p.x_initials.length = k) (hy : p.y_initials.length = k)
    (i : ℕ) (hi : i < n_steps p k) :
    (_adams_bashforth p k).getD (k + i) 0
      = (_adams_bashforth p k).getD (k + i - 1) 0 + quirk_inc p k i := by
  rw [char_getD p k hk hx hy (k + i) (by omega),
    char_getD p k hk hx hy (k + i - 1) (by omega),
    quirk_y_add p k i hk]

theorem step_f_vals_eq (p : AdamsBashforth) (k : ℕ) (hk : 1 ≤ k)
    (hx : p.x_initials.length = k) (hy : p.y_initials.length = k) (i : ℕ) :
    step_f_vals p k i = (List.range k).map fun j =>
      p.func ((x_window p k i).getD j 0) (p.y_initials.getD j 0) := by
  have ht : p.y_initials.take k = p.y_initials := by
    rw [← hy]; exact List.take_length _
  unfold step_f_vals f_vals_of
  rw [ht, x_window_length p k hk hx]

theorem step_f_vals_length (p : AdamsBashforth) (k : ℕ) (hk : 1 ≤ k)
    (hx : p.x_initials.length = k) (hy : p.y_initials.length = k) (i : ℕ) :
    (step_f_vals p k i).length = k := by
  rw [step_f_vals_eq p k hk hx hy i]; simp

/-! Dot products as indexed sums. -/

theorem dotProd_cons (a b : ℚ) (as bs : List ℚ) :
    dotProd (a :: as) (b :: bs) = a * b + dotProd as bs := rfl

theorem dotProd_eq_sum :
    ∀ (a b : List ℚ), a.length = b.length →
      dotProd a b = ∑ j ∈ Finset.range a.length, a.getD j 0 * b.getD j 0
  | [], [], _ => by simp [dotProd]
  | [], _ :: _, h => by simp at h
  | _ :: _, [], h => by simp at h
  | a :: as, b :: bs, h => by
    rw [dotProd_cons, dotProd_eq_sum as bs (by simpa using h),
      List.length_cons, Finset.sum_range_succ']
    simp [add_comm]

theorem getD_reverse (b : List ℚ) (j : ℕ) (hj : j < b.length) :
    b.reverse.getD j 0 = b.getD (b.length - 1 - j) 0 := by
  rw [List.getD_eq_getElem _ 0 (by simpa using hj),
    List.getD_eq_getElem _ 0 (by omega), List.getElem_reverse]

theorem dotProd_reverse_eq_sum (a b : List ℚ) (L : ℕ)
    (ha : a.length = L) (hb : b.length = L) :
    dotProd a b.reverse
      = ∑ j ∈ Finset.range L, a.getD j 0 * b.getD (L - 1 - j) 0 := by
  rw [dotProd_eq_sum a b.reverse (by simp [ha, hb]), ha]
  apply Finset.sum_congr rfl
  intro j hj
  rw [getD_reverse b j (by rw [hb]; exact Finset.mem_range.mp hj), hb]

/-! Unfolding lemmas for `construct`. -/

theorem construct_ok (func : ℚ → ℚ → ℚ) (x0 y0 : List ℚ) (h xf : ℚ)
    (h1 : x0 ≠ []) (h2 : x0.getLastD 0 < xf) (h3 : 0 < h)
    (h4 : all_equally_spaced x0 h = true) :
    construct func x0 y0 h xf = .ok ⟨func, x0, y0, h, xf⟩ := by
  unfold construct
  rw [if_neg h1, if_neg (not_le.mpr h2), if_neg (not_le.mpr h3), if_pos h4]

theorem construct_spacing_err (func : ℚ → ℚ → ℚ) (x0 y0 : List ℚ) (h xf : ℚ)
    (h1 : x0 ≠ []) (h2 : x0.getLastD 0 < xf) (h3 : 0 < h)
    (h4 : all_equally_spaced x0 h = false) :
    construct func x0 y0 h xf = .error .nonUniformSpacing := by
  unfold construct
  rw [if_neg h1, if_neg (not_le.mpr h2), if_neg (not_le.mpr h3),
    if_neg (by rw [h4]; exact Bool.false_ne_true)]

theorem construct_step_err (func : ℚ → ℚ → ℚ) (x0 y0 : List ℚ) (h xf : ℚ)
    (h1 : x0 ≠ []) (h2 : x0.getLastD 0 < xf) (h3 : h ≤ 0) :
    construct func x0 y0 h xf = .error .invalidStepSize := by
  unfold construct
  rw [if_neg h1, if_neg (not_le.mpr h2), if_pos h3]

theorem construct_range_err (func : ℚ → ℚ → ℚ) (x0 y0 : List ℚ) (h xf : ℚ)
    (h1 : x0 ≠ []) (h2 : xf ≤ x0.getLastD 0) :
    construct func x0 y0 h xf = .error .invalidRange := by
  unfold construct
  rw [if_neg h1, if_pos h2]

theorem construct_ok_inv (func : ℚ → ℚ → ℚ) (x0 y0 : List ℚ) (h xf : ℚ)
    (p : AdamsBashforth) (hok : construct func x0 y0 h xf = .ok p) :
    p = ⟨func, x0, y0, h, xf⟩ ∧ x0 ≠ [] ∧ x0.getLastD 0 < xf ∧ 0 < h ∧
      all_equally_spaced x0 h = true := by
  unfold construct at hok
  split_ifs at hok with i1 i2 i3 i4
  all_goals first
    | exact Except.noConfusion hok
    | exact ⟨(Except.ok.inj hok).symm, i1, not_le.mp i2, not_le.mp i3, i4⟩

theorem valid_construct (p : AdamsBashforth) (hv : Valid p) :
    construct p.func p.x_initials p.y_initials p.step_size p.x_final = .ok p := by
  obtain ⟨h1, h2, h3, h4⟩ := hv
  rw [construct_ok p.func _ _ _ _ h1 h2 h3 h4]

/-! Arithmetic of round half to even. -/

theorem round_half_even_of_abs_lt (q : ℚ) (m : ℤ) (h : |q - m| < 1 / 2) :
    round_half_even q = m := by
  rw [abs_lt] at h
  obtain ⟨hlo, hhi⟩ := h
  unfold round_half_even
  rcases le_or_lt (m : ℚ) q with hmq | hqm
  · have hfl : ⌊q⌋ = m := Int.floor_eq_iff.mpr ⟨hmq, by
      have : ((m : ℚ)) + 1 = ((m : ℤ) : ℚ) + 1 := by norm_num
      linarith⟩
    have hfr : Int.fract q = q - m := by
      rw [← Int.self_sub_floor, hfl]
    rw [if_pos (by rw [hfr]; linarith), hfl]
  · have hfl : ⌊q⌋ = m - 1 := by
      apply Int.floor_eq_iff.mpr
      constructor <;> push_cast <;> linarith
    have hfr : Int.fract q = q - m + 1 := by
      rw [← Int.self_sub_floor, hfl]
      push_cast
      ring
    rw [if_neg (by rw [hfr]; linarith), if_pos (by rw [hfr]; linarith), hfl]
    omega

theorem round_half_even_close (q : ℚ) : |(round_half_even q : ℚ) - q| ≤ 1 / 2 := by
  have h0 : (0 : ℚ) ≤ Int.fract q := Int.fract_nonneg q
  have h1 : Int.fract q < 1 := Int.fract_lt_one q
  have hq : ((⌊q⌋ : ℤ) : ℚ) = q - Int.fract q := by
    rw [← Int.self_sub_floor]
    ring
  unfold round_half_even
  split_ifs with ha hb hc
  · rw [abs_le]
    constructor <;> rw [hq] <;> linarith
  · rw [abs_le]
    constructor <;> push_cast <;> rw [hq] <;> linarith
  · have hf : Int.fract q = 1 / 2 := le_antisymm (not_lt.mp hb) (not_lt.mp ha)
    rw [abs_le]
    constructor <;> rw [hq, hf] <;> linarith
  · have hf : Int.fract q = 1 / 2 := le_antisymm (not_lt.mp hb) (not_lt.mp ha)
    rw [abs_le]
    constructor <;> push_cast <;> rw [hq, hf] <;> linarith

theorem round10_eq (d h : ℚ) (m : ℤ) (hm : h = (m : ℚ) / 10 ^ 10)
    (hd : |d - h| < 1 / (2 * 10 ^ 10)) : round10 d = h := by
  have hpow : (0 : ℚ) < 10 ^ 10 := by positivity
  have key : round_half_even (d * 10 ^ 10) = m := by
    apply round_half_even_of_abs_lt
    have he : d * 10 ^ 10 - m = (d - h) * 10 ^ 10 := by
      rw [hm]
      field_simp
    rw [he, abs_mul, abs_of_pos hpow]
    calc |d - h| * 10 ^ 10 < (1 / (2 * 10 ^ 10)) * 10 ^ 10 :=
          mul_lt_mul_of_pos_right hd hpow
      _ = 1 / 2 := by norm_num
  unfold round10
  rw [key, hm]

theorem round10_ne (d h : ℚ) (m : ℤ) (hm : h = (m : ℚ) / 10 ^ 10)
    (hd : 1 / (2 * 10 ^ 10) < |d - h|) : round10 d ≠ h := by
  intro heq
  unfold round10 at heq
  rw [hm] at heq
  have hme : round_half_even (d * 10 ^ 10) = m := by
    have hpow : (10 : ℚ) ^ 10 ≠ 0 := by positivity
    field_simp at heq
    exact_mod_cast heq
  have hclose := round_half_even_close (d * 10 ^ 10)
  rw [hme] at hclose
  have he : (m : ℚ) - d * 10 ^ 10 = -((d - h) * 10 ^ 10) := by
    rw [hm]
    field_simp
  rw [he, abs_neg, abs_mul, abs_of_pos (by positivity : (0:ℚ) < 10 ^ 10)] at hclose
  have : (1 / (2 * 10 ^ 10) : ℚ) * 10 ^ 10 < |d - h| * 10 ^ 10 :=
    mul_lt_mul_of_pos_right hd (by positivity)
  have h12 : (1 / (2 * 10 ^ 10) : ℚ) * 10 ^ 10 = 1 / 2 := by norm_num
  linarith

/-! Further helper lemmas feeding the claim theorems. -/

theorem stepOrder_ok (p : AdamsBashforth) (k : ℕ)
    (hx : p.x_initials.length = k) (hy : p.y_initials.length = k) :
    stepOrder p k = .ok (_adams_bashforth p k) := by
  unfold stepOrder _validate_initial_points
  rw [if_neg (by simp [hx, hy])]

theorem getLastD_eq_getD (l : List ℚ) :
    l.getLastD 0 = l.getD (l.length - 1) 0 := by
  rw [List.getLastD_eq_getLast?, List.getLast?_eq_getElem?,
    List.getD_eq_getElem?_getD]

theorem x_initials_take (p : AdamsBashforth) (k : ℕ)
    (hx : p.x_initials.length = k) : p.x_initials.take k = p.x_initials := by
  rw [← hx]
  exact List.take_length _

theorem x_window_getLastD (p : AdamsBashforth) (k : ℕ)
    (hx : p.x_initials.length = k) :
    ∀ i, (x_window p k i).getLastD 0
      = p.x_initials.getLastD 0 + i * p.step_size := by
  intro i
  induction i with
  | zero => rw [x_window_zero, x_initials_take p k hx]; push_cast; ring
  | succ i ih =>
    rw [x_window_succ]
    unfold slide
    rw [List.getLastD_concat, ih]
    push_cast
    ring

theorem getD_map_cast : ∀ (c : List ℤ) (j : ℕ),
    (c.map fun (z : ℤ) => (z : ℚ)).getD j 0 = ((c.getD j 0 : ℤ) : ℚ)
  | [], j => by simp
  | z :: c, 0 => by simp
  | z :: c, j + 1 => by
    simp only [List.map_cons, List.getD_cons_succ]
    exact getD_map_cast c j

theorem coeffs_length (k : ℕ) (hk : k = 2 ∨ k = 3 ∨ k = 4 ∨ k = 5) :
    (coeffs k).length = k := by
  rcases hk with h | h | h | h <;> subst h <;> rfl

theorem range_map_quirk_eq (p : AdamsBashforth) (k : ℕ)
    (hy : p.y_initials.length = k) :
    (List.range k).map (quirk_y p k) = p.y_initials := by
  conv_rhs => rw [← range_map_getD p.y_initials]
  rw [hy]
  apply List.map_congr_left
  intro j hj
  rw [quirk_y_lt p k j (List.mem_range.mp hj)]

theorem n_steps_eq_floor (p : AdamsBashforth) (k : ℕ)
    (hx : p.x_initials.length = k)
    (h2 : p.x_initials.getLastD 0 < p.x_final) (h3 : 0 < p.step_size) :
    (n_steps p k : ℤ)
      = ⌊(p.x_final - p.x_initials.getLastD 0) / p.step_size⌋ := by
  unfold n_steps int_of
  rw [x_initials_take p k hx]
  have hq : 0 < (p.x_final - p.x_initials.getLastD 0) / p.step_size :=
    div_pos (by linarith) h3
  rw [if_neg (by linarith)]
  exact Int.toNat_of_nonneg (Int.floor_nonneg.mpr (le_of_lt hq))

/-! The claims. -/

/-- C1 (counterexample): the claim says the step-`i` derivative
evaluations are `f(x_window[j], y[i+j])` — window x-values paired with the
k most recently computed y-values.  On the valid order-2 problem `probA`
(f(x,y) = y) the run mandated by that rule differs from what the code
computes, because line 81 reads `y[j]`, the fixed initial entries. -/
theorem C1_counterexample :
    Valid probA ∧ probA.x_initials.length = 2 ∧ probA.y_initials.length = 2 ∧
      stepOrder probA 2 = Except.ok (_adams_bashforth probA 2) ∧
      adams_bashforth_recent probA 2 ≠ _adams_bashforth probA 2 :=
  ⟨by decide, by decide, by decide, rfl, by decide⟩

/-- C1 (amended): for every validly constructed problem and order
k ∈ {2,3,4,5} with matching point counts, `step_k` succeeds and its result
is the sequence whose step increments evaluate the derivative at
`f(x_window[j], y[j])` for j = 0..k-1 — each window x-coordinate paired
with the y-value at the fixed window position (an initial y-value), not
with the k most recently computed y-values. -/
theorem C1_amended (p : AdamsBashforth) (_hv : Valid p) (k : ℕ)
    (hk : k = 2 ∨ k = 3 ∨ k = 4 ∨ k = 5)
    (hx : p.x_initials.length = k) (hy : p.y_initials.length = k) :
    stepOrder p k
        = Except.ok ((List.range (k + n_steps p k)).map (quirk_y p k)) ∧
    ∀ i, i < n_steps p k →
      step_f_vals p k i = (List.range k).map fun j =>
        p.func ((x_window p k i).getD j 0) (p.y_initials.getD j 0) := by
  have hk1 : 1 ≤ k := by omega
  constructor
  · rw [stepOrder_ok p k hx hy, adams_bashforth_char p k hk1 hx hy]
  · intro i _
    exact step_f_vals_eq p k hk1 hx hy i

/-- Witness for C1 (amended) at the spec's concrete order-3 scenario. -/
theorem C1_amended_witness :
    Valid exP3 ∧
    (stepOrder exP3 3
        = Except.ok ((List.range (3 + n_steps exP3 3)).map (quirk_y exP3 3)) ∧
      ∀ i, i < n_steps exP3 3 →
        step_f_vals exP3 3 i = (List.range 3).map fun j =>
          exP3.func ((x_window exP3 3 i).getD j 0) (exP3.y_initials.getD j 0)) :=
  ⟨by decide, C1_amended exP3 (by decide) 3 (by decide) (by decide) (by decide)⟩

/-- C2 (confirmed): at each step the derivative evaluations pair each
window x-coordinate with the y-value at the window position — an entry of
the first k (initial) entries of the result — so the y-arguments never
advance, while the window's newest x-coordinate advances by `step_size`
each step. -/
theorem C2_window_position_pairing (p : AdamsBashforth) (_hv : Valid p)
    (k : ℕ) (hk : k = 2 ∨ k = 3 ∨ k = 4 ∨ k = 5)
    (hx : p.x_initials.length = k) (hy : p.y_initials.length = k) :
    (∀ i, i < n_steps p k →
      step_f_vals p k i = (List.range k).map fun j =>
        p.func ((x_window p k i).getD j 0) ((_adams_bashforth p k).getD j 0)) ∧
    (_adams_bashforth p k).take k = p.y_initials ∧
    (∀ i, (x_window p k i).getLastD 0
        = p.x_initials.getLastD 0 + i * p.step_size) := by
  have hk1 : 1 ≤ k := by omega
  refine ⟨fun i _ => ?_, char_take p k hk1 hx hy, x_window_getLastD p k hx⟩
  rw [step_f_vals_eq p k hk1 hx hy i]
  apply List.map_congr_left
  intro j hj
  have hjk : j < k := List.mem_range.mp hj
  rw [char_getD p k hk1 hx hy j (by omega), quirk_y_lt p k j hjk]

/-- Witness for C2 at the spec's concrete order-3 scenario. -/
theorem C2_witness :
    Valid exP3 ∧
    ((∀ i, i < n_steps exP3 3 →
      step_f_vals exP3 3 i = (List.range 3).map fun j =>
        exP3.func ((x_window exP3 3 i).getD j 0)
          ((_adams_bashforth exP3 3).getD j 0)) ∧
    (_adams_bashforth exP3 3).take 3 = exP3.y_initials ∧
    (∀ i, (x_window exP3 3 i).getLastD 0
        = exP3.x_initials.getLastD 0 + i * exP3.step_size)) :=
  ⟨by decide,
    C2_window_position_pairing exP3 (by decide) 3 (by decide) (by decide)
      (by decide)⟩

/-- C3 (confirmed): the coefficient tables and denominators are as stated,
each computed entry is the previous entry plus
`step_size/(k-1)! * Σ_j c[j] * f_vals[k-1-j]` (the coefficient vector
against the step's derivative evaluations in reverse order), and after
each step the x-window drops its oldest entry and appends
`x_window[-1] + step_size`. -/
theorem C3_recurrence (p : AdamsBashforth) (_hv : Valid p) (k : ℕ)
    (hk : k = 2 ∨ k = 3 ∨ k = 4 ∨ k = 5)
    (hx : p.x_initials.length = k) (hy : p.y_initials.length = k) :
    (coeffs 2 = [3, -1] ∧ coeffs 3 = [23, -16, 5] ∧
      coeffs 4 = [55, -59, 37, -9] ∧
      coeffs 5 = [1901, -2774, 2616, -1274, 251]) ∧
    (Nat.factorial (2 - 1) = 1 ∧ Nat.factorial (3 - 1) = 2 ∧
      Nat.factorial (4 - 1) = 6 ∧ Nat.factorial (5 - 1) = 24) ∧
    (∀ i, i < n_steps p k →
      (_adams_bashforth p k).getD (k + i) 0
        = (_adams_bashforth p k).getD (k + i - 1) 0
          + (p.step_size / (Nat.factorial (k - 1) : ℚ)) *
              ∑ j ∈ Finset.range k,
                (((coeffs k).getD j 0 : ℤ) : ℚ) *
                  (step_f_vals p k i).getD (k - 1 - j) 0) ∧
    (∀ i, x_window p k (i + 1)
        = (x_window p k i).tail
            ++ [(x_window p k i).getLastD 0 + p.step_size]) := by
  have hk1 : 1 ≤ k := by omega
  refine ⟨⟨rfl, rfl, rfl, rfl⟩, ⟨rfl, rfl, rfl, rfl⟩, fun i hi => ?_,
    fun i => x_window_succ p k i⟩
  rw [char_rec p k hk1 hx hy i hi]
  congr 1
  unfold quirk_inc
  congr 1
  have hlen1 : ((coeffs k).map fun (z : ℤ) => (z : ℚ)).length = k := by
    rw [List.length_map]
    exact coeffs_length k hk
  rw [dotProd_reverse_eq_sum ((coeffs k).map fun (z : ℤ) => (z : ℚ))
    (step_f_vals p k i) k hlen1 (step_f_vals_length p k hk1 hx hy i)]
  exact Finset.sum_congr rfl fun j _ => by rw [getD_map_cast]

/-- Witness for C3 at the spec's concrete order-3 scenario. -/
theorem C3_witness :
    Valid exP3 ∧
    ((coeffs 2 = [3, -1] ∧ coeffs 3 = [23, -16, 5] ∧
      coeffs 4 = [55, -59, 37, -9] ∧
      coeffs 5 = [1901, -2774, 2616, -1274, 251]) ∧
    (Nat.factorial (2 - 1) = 1 ∧ Nat.factorial (3 - 1) = 2 ∧
      Nat.factorial (4 - 1) = 6 ∧ Nat.factorial (5 - 1) = 24) ∧
    (∀ i, i < n_steps exP3 3 →
      (_adams_bashforth exP3 3).getD (3 + i) 0
        = (_adams_bashforth exP3 3).getD (3 + i - 1) 0
          + (exP3.step_size / (Nat.factorial (3 - 1) : ℚ)) *
              ∑ j ∈ Finset.range 3,
                (((coeffs 3).getD j 0 : ℤ) : ℚ) *
                  (step_f_vals exP3 3 i).getD (3 - 1 - j) 0) ∧
    (∀ i, x_window exP3 3 (i + 1)
        = (x_window exP3 3 i).tail
            ++ [(x_window exP3 3 i).getLastD 0 + exP3.step_size])) :=
  ⟨by decide,
    C3_recurrence exP3 (by decide) 3 (by decide) (by decide) (by decide)⟩

/-- C4 (confirmed): with matching point counts, `step_k` succeeds, the
result's length is exactly `k + floor((x_final - x_initials[k-1]) /
step_size)`, its first k entries are exactly `y_initials[0:k]`, and when
the floor term is zero the result is exactly `y_initials`. -/
theorem C4_length_law (p : AdamsBashforth) (hv : Valid p) (k : ℕ)
    (hk : k = 2 ∨ k = 3 ∨ k = 4 ∨ k = 5)
    (hx : p.x_initials.length = k) (hy : p.y_initials.length = k) :
    stepOrder p k = Except.ok (_adams_bashforth p k) ∧
    ((_adams_bashforth p k).length : ℤ)
      = k + ⌊(p.x_final - p.x_initials.getD (k - 1) 0) / p.step_size⌋ ∧
    (_adams_bashforth p k).take k = p.y_initials ∧
    (⌊(p.x_final - p.x_initials.getD (k - 1) 0) / p.step_size⌋ = 0 →
      _adams_bashforth p k = p.y_initials) := by
  have hk1 : 1 ≤ k := by omega
  obtain ⟨h1, h2, h3, h4⟩ := hv
  have hgd : p.x_initials.getD (k - 1) 0 = p.x_initials.getLastD 0 := by
    rw [getLastD_eq_getD, hx]
  have hfl : (n_steps p k : ℤ)
      = ⌊(p.x_final - p.x_initials.getD (k - 1) 0) / p.step_size⌋ := by
    rw [hgd]
    exact n_steps_eq_floor p k hx h2 h3
  refine ⟨stepOrder_ok p k hx hy, ?_, char_take p k hk1 hx hy, fun hz => ?_⟩
  · rw [char_length p k hk1 hx hy]
    push_cast
    rw [hfl]
  · have hn : n_steps p k = 0 := by
      have := hfl.trans hz
      exact_mod_cast this
    rw [adams_bashforth_char p k hk1 hx hy, hn, Nat.add_zero]
    exact range_map_quirk_eq p k hy

/-- Witness for C4 at the spec's concrete order-3 scenario. -/
theorem C4_witness :
    Valid exP3 ∧
    (stepOrder exP3 3 = Except.ok (_adams_bashforth exP3 3) ∧
    ((_adams_bashforth exP3 3).length : ℤ)
      = 3 + ⌊(exP3.x_final - exP3.x_initials.getD (3 - 1) 0) / exP3.step_size⌋ ∧
    (_adams_bashforth exP3 3).take 3 = exP3.y_initials ∧
    (⌊(exP3.x_final - exP3.x_initials.getD (3 - 1) 0) / exP3.step_size⌋ = 0 →
      _adams_bashforth exP3 3 = exP3.y_initials)) :=
  ⟨by decide,
    C4_length_law exP3 (by decide) 3 (by decide) (by decide) (by decide)⟩

/-- C6 (counterexample): the claim says the spacing check is equivalent to
an absolute tolerance of 1e-10.  With step_size 0.1 and a single spacing
of 0.1 + 7e-11 — within 1e-10 of the step size, so the claim predicts
success — construction nevertheless fails with NonUniformSpacingError,
because `round(·, 10)` rounds 0.10000000007 to 0.1000000001 ≠ 0.1. -/
theorem C6_counterexample :
    construct zeroF [0, 1/10 + 7/10^11] [0, 0] (1/10) 1
        = .error .nonUniformSpacing ∧
    (0 : ℚ) < 1/10 ∧ ([0, 1/10 + 7/10^11] : List ℚ).getLastD 0 < 1 ∧
    |((1/10 + 7/10^11) - 0) - (1/10 : ℚ)| ≤ 1/10^10 :=
  ⟨by rfl, by decide, by decide, by decide⟩

/-- C6 (amended): for nonempty `x_initials` with the range and step-size
checks passing and `step_size` an integer multiple of 1e-10, construction
succeeds when every consecutive spacing differs from `step_size` by less
than 5e-11, and fails with NonUniformSpacingError when some spacing
differs by more than 5e-11: the effective absolute tolerance of the
round-to-ten-digits check is 5e-11 (with ties at exactly 5e-11 resolved
half-to-even), not 1e-10. -/
theorem C6_amended (func : ℚ → ℚ → ℚ) (x0 y0 : List ℚ) (h xf : ℚ) (m : ℤ)
    (h1 : x0 ≠ []) (h2 : x0.getLastD 0 < xf) (h3 : 0 < h)
    (hm : h = (m : ℚ) / 10 ^ 10) :
    ((∀ pr ∈ x0.zip x0.tail, |pr.2 - pr.1 - h| < 1 / (2 * 10 ^ 10)) →
      construct func x0 y0 h xf = .ok ⟨func, x0, y0, h, xf⟩) ∧
    ((∃ pr ∈ x0.zip x0.tail, 1 / (2 * 10 ^ 10) < |pr.2 - pr.1 - h|) →
      construct func x0 y0 h xf = .error .nonUniformSpacing) := by
  constructor
  · intro hall
    apply construct_ok func x0 y0 h xf h1 h2 h3
    unfold all_equally_spaced
    rw [List.all_eq_true]
    intro pr hpr
    rw [decide_eq_true_eq]
    exact round10_eq _ _ m hm (hall pr hpr)
  · rintro ⟨pr, hpr, hgt⟩
    apply construct_spacing_err func x0 y0 h xf h1 h2 h3
    apply Bool.eq_false_iff.mpr
    intro hall
    unfold all_equally_spaced at hall
    rw [List.all_eq_true] at hall
    have := hall pr hpr
    rw [decide_eq_true_eq] at this
    exact round10_ne _ _ m hm hgt this

/-- Witness for C6 (amended) on a two-point problem with step 0.1. -/
theorem C6_amended_witness :
    ([0, 1/10] : List ℚ) ≠ [] ∧ ([0, 1/10] : List ℚ).getLastD 0 < 1 ∧
    (0 : ℚ) < 1/10 ∧ (1/10 : ℚ) = ((10 ^ 9 : ℤ) : ℚ) / 10 ^ 10 ∧
    ((∀ pr ∈ ([0, 1/10] : List ℚ).zip ([0, 1/10] : List ℚ).tail,
        |pr.2 - pr.1 - (1/10 : ℚ)| < 1 / (2 * 10 ^ 10)) →
      construct zeroF [0, 1/10] [0] (1/10) 1
        = .ok ⟨zeroF, [0, 1/10], [0], 1/10, 1⟩) ∧
    ((∃ pr ∈ ([0, 1/10] : List ℚ).zip ([0, 1/10] : List ℚ).tail,
        1 / (2 * 10 ^ 10) < |pr.2 - pr.1 - (1/10 : ℚ)|) →
      construct zeroF [0, 1/10] [0] (1/10) 1 = .error .nonUniformSpacing) :=
  ⟨by decide, by decide, by decide, by decide,
    (C6_amended zeroF [0, 1/10] [0] (1/10) 1 (10 ^ 9) (by decide) (by decide)
      (by decide) (by decide)).1,
    (C6_amended zeroF [0, 1/10] [0] (1/10) 1 (10 ^ 9) (by decide) (by decide)
      (by decide) (by decide)).2⟩

/-- C7 (counterexample): the claim says a non-positive step size fails
with InvalidStepSizeError regardless of the other fields.  With
x_initials = [1] and x_final = 1 the range check fires first: step_size
is 0 but construction fails with InvalidRangeError instead. -/
theorem C7_counterexample :
    construct zeroF [1] [0] 0 1 = .error .invalidRange ∧
    ConstructError.invalidRange ≠ ConstructError.invalidStepSize :=
  ⟨by rfl, by decide⟩

/-- C7 (amended): when `x_initials` is nonempty and its last entry is
below `x_final` (so the first check passes), any `step_size ≤ 0` — in
particular 0 and -0.1 — fails with InvalidStepSizeError regardless of
`func`, `y_initials`, and the spacing of `x_initials`. -/
theorem C7_amended (func : ℚ → ℚ → ℚ) (x0 y0 : List ℚ) (h xf : ℚ)
    (h1 : x0 ≠ []) (h2 : x0.getLastD 0 < xf) (h3 : h ≤ 0) :
    construct func x0 y0 h xf = .error .invalidStepSize :=
  construct_step_err func x0 y0 h xf h1 h2 h3

/-- Witness for C7 (amended) with step size 0. -/
theorem C7_amended_witness :
    ([0] : List ℚ) ≠ [] ∧ ([0] : List ℚ).getLastD 0 < 1 ∧ (0 : ℚ) ≤ 0 ∧
    construct zeroF [0] [7] 0 1 = .error .invalidStepSize :=
  ⟨by decide, by decide, by decide,
    C7_amended zeroF [0] [7] 0 1 (by decide) (by decide) (by decide)⟩

/-- C8 (confirmed): `step_k` fails with InsufficientInitialPointsError —
naming the required count k — exactly when one of the two initial lists
does not have length k; and since the stepping operations are pure
functions of the problem, a correctly-sized call on the same problem
returns the normal result. -/
theorem C8_insufficient_points (p : AdamsBashforth) (_hv : Valid p) (k : ℕ)
    (_hk : k = 2 ∨ k = 3 ∨ k = 4 ∨ k = 5) :
    (stepOrder p k = .error (.insufficientInitialPoints k) ↔
      p.x_initials.length ≠ k ∨ p.y_initials.length ≠ k) ∧
    (∀ j, p.x_initials.length = j → p.y_initials.length = j →
      stepOrder p j = .ok (_adams_bashforth p j)) := by
  refine ⟨⟨fun he => ?_, fun hne => ?_⟩, fun j hxj hyj => stepOrder_ok p j hxj hyj⟩
  · by_contra hno
    push_neg at hno
    rw [stepOrder_ok p k hno.1 hno.2] at he
    exact Except.noConfusion he
  · unfold stepOrder _validate_initial_points
    rw [if_pos hne]

/-- Witness for C8: the spec's order-3 problem called with order 2. -/
theorem C8_witness :
    Valid exP3 ∧
    ((stepOrder exP3 2 = .error (.insufficientInitialPoints 2) ↔
      exP3.x_initials.length ≠ 2 ∨ exP3.y_initials.length ≠ 2) ∧
    (∀ j, exP3.x_initials.length = j → exP3.y_initials.length = j →
      stepOrder exP3 j = .ok (_adams_bashforth exP3 j))) :=
  ⟨by decide, C8_insufficient_points exP3 (by decide) 2 (by decide)⟩

/-- C9 (counterexample): construction never compares the two lengths;
x_initials = [0, 1] with y_initials = [5] (lengths 2 and 1) constructs
successfully, refuting the claimed invariant. -/
theorem C9_counterexample :
    construct zeroF [0, 1] [5] 1 2 = .ok ⟨zeroF, [0, 1], [5], 1, 2⟩ ∧
    ([0, 1] : List ℚ).length ≠ ([5] : List ℚ).length :=
  ⟨construct_ok zeroF [0, 1] [5] 1 2 (by decide) (by decide) (by decide)
      (by decide),
    by decide⟩

/-- C9 (amended): a successfully constructed problem carries exactly the
caller-supplied lists — their lengths are whatever the caller supplied,
equal only when the caller supplied equal lengths; no cross-length check
is performed at construction time. -/
theorem C9_amended (func : ℚ → ℚ → ℚ) (x0 y0 : List ℚ) (h xf : ℚ)
    (p : AdamsBashforth) (hok : construct func x0 y0 h xf = .ok p) :
    p.x_initials = x0 ∧ p.y_initials = y0 ∧
      p.x_initials.length = x0.length ∧ p.y_initials.length = y0.length := by
  obtain ⟨hp, -⟩ := construct_ok_inv func x0 y0 h xf p hok
  subst hp
  exact ⟨rfl, rfl, rfl, rfl⟩

/-- Witness for C9 (amended) at the mismatched-lengths instance. -/
theorem C9_amended_witness :
    construct zeroF [0, 1] [5] 1 2 = .ok ⟨zeroF, [0, 1], [5], 1, 2⟩ ∧
    ((⟨zeroF, [0, 1], [5], 1, 2⟩ : AdamsBashforth).x_initials = [0, 1] ∧
     (⟨zeroF, [0, 1], [5], 1, 2⟩ : AdamsBashforth).y_initials = [5] ∧
     (⟨zeroF, [0, 1], [5], 1, 2⟩ : AdamsBashforth).x_initials.length
        = ([0, 1] : List ℚ).length ∧
     (⟨zeroF, [0, 1], [5], 1, 2⟩ : AdamsBashforth).y_initials.length
        = ([5] : List ℚ).length) :=
  ⟨construct_ok zeroF [0, 1] [5] 1 2 (by decide) (by decide) (by decide)
      (by decide),
    C9_amended zeroF [0, 1] [5] 1 2 ⟨zeroF, [0, 1], [5], 1, 2⟩
      (construct_ok zeroF [0, 1] [5] 1 2 (by decide) (by decide) (by decide)
        (by decide))⟩

/-- C10 (confirmed): with empty `x_initials`, construction fails with the
out-of-bounds indexing error from reading `x_initials[-1]` — distinct from
the three named constructor errors (and by type from
InsufficientInitialPointsError) — for every choice of the other fields. -/
theorem C10_empty_x_initials (func : ℚ → ℚ → ℚ) (y0 : List ℚ) (h xf : ℚ) :
    construct func [] y0 h xf = .error .indexError ∧
    ConstructError.indexError ≠ ConstructError.invalidRange ∧
    ConstructError.indexError ≠ ConstructError.invalidStepSize ∧
    ConstructError.indexError ≠ ConstructError.nonUniformSpacing :=
  ⟨rfl, by decide, by decide, by decide⟩
